import Mathlib

/-!
Verification of the two-pass basic-computer assembler (`assembler.py`).

The Python source is shallowly embedded below.  Lines of assembly code are
lists of tokens (`List String`), the three instruction tables and the binary
image are association lists with Python-dict update semantics, and every
operation that can raise a Python exception (IndexError on out-of-range list
access, ValueError inside `int(...)`, and the explicit `raise` in
`__format2bin`) returns `Except PyError`.

Numeric conversion mirrors Python: `str(n)` and the binary format spec
produce most-significant-digit-first digit strings with no leading zeros
(`"0"` for zero), `zfill` left-pads with `'0'`, and `int(s)` / `int(s, 16)`
parse non-empty all-digit strings (the optional sign, underscores and `0x`
prefix accepted by Python never occur in this assembler's inputs and are not
modelled).
-/

deriving instance DecidableEq for Except

/-- Python exception kinds that the assembler's code paths can raise. -/
inductive PyError : Type where
  | indexError : PyError
  | valueError : PyError
  | formatError : PyError
deriving DecidableEq, Repr

/-- An instruction table (`__mri_table`, `__rri_table`, `__ioi_table`):
mnemonic to opcode-bit-string mapping. -/
abbrev OpTable : Type := List (String × String)

/-- The address symbol table (`__address_symbol_table`): label token
(comma included) to location-counter value. -/
abbrev SymTable : Type := List (String × Nat)

/-- The binary image (`__bin`): 12-bit address string to 16-bit word string. -/
abbrev BinImage : Type := List (String × String)

/-- Python dict read `d[k]` / `k in d`, as an option-valued lookup. -/
def dictGet {β : Type} (d : List (String × β)) (k : String) : Option β :=
  (d.find? (fun p => p.1 == k)).map Prod.snd

/-- Python dict write `d[k] = v`: overwrite in place when the key exists,
append otherwise. -/
def dictInsert {β : Type} (d : List (String × β)) (k : String) (v : β) :
    List (String × β) :=
  if (d.find? (fun p => p.1 == k)).isSome then
    d.map (fun p => if p.1 == k then (k, v) else p)
  else
    d ++ [(k, v)]

/-- `__islabel`: a token is a label when it ends with a comma
(Python `string.endswith(',')`, i.e. its last character is `','`). -/
def islabel (s : String) : Bool := s.data.getLast? == some ','

/-- Python `token.startswith('/')`: the first character is `'/'`. -/
def startsSlash (s : String) : Bool := s.data.head? == some '/'

/-- One line of `__rm_comments`: drop the first token starting with `/` and
everything after it on the line. -/
def rmLine : List String → List String
  | [] => []
  | t :: ts => if startsSlash t then [] else t :: rmLine ts

/-- `__rm_comments`: strip comments from every line. -/
def rm_comments (asm : List (List String)) : List (List String) :=
  asm.map rmLine

/-- The `.lower()` applied by `read_code` to each source line, at the level
of a single token (character-wise lowering). -/
def lowerToken (s : String) : String := String.mk (s.data.map Char.toLower)

/-- The tokenised form `read_code` produces: every token lower-cased. -/
def readTokens (asm : List (List String)) : List (List String) :=
  asm.map (fun l => l.map lowerToken)

/-- Value of a decimal digit character, `none` on any other character
(Python `int(s)` raises ValueError on non-digits). -/
def decDigitVal (c : Char) : Option Nat :=
  if '0' ≤ c ∧ c ≤ '9' then some (c.toNat - 48) else none

/-- Value of a hexadecimal digit character, `none` otherwise
(Python `int(s, 16)` raises ValueError on non-hex-digits). -/
def hexDigitVal (c : Char) : Option Nat :=
  if '0' ≤ c ∧ c ≤ '9' then some (c.toNat - 48)
  else if 'a' ≤ c ∧ c ≤ 'f' then some (c.toNat - 97 + 10)
  else if 'A' ≤ c ∧ c ≤ 'F' then some (c.toNat - 65 + 10)
  else none

/-- Accumulating digit-string parser: most significant digit first. -/
def parseCore (dv : Char → Option Nat) (base : Nat) :
    Nat → List Char → Option Nat
  | acc, [] => some acc
  | acc, c :: cs =>
    match dv c with
    | none => none
    | some d => parseCore dv base (base * acc + d) cs

/-- Python `int(s)` restricted to unsigned decimal numerals. -/
def pyIntDec (s : String) : Option Nat :=
  if s.data = [] then none else parseCore decDigitVal 10 0 s.data

/-- Python `int(s, 16)` restricted to unsigned hexadecimal numerals. -/
def pyIntHex (s : String) : Option Nat :=
  if s.data = [] then none else parseCore hexDigitVal 16 0 s.data

/-- Digit characters of `n` in base `b` (for `b ≤ 10`), most significant
first, empty for 0; structural recursion on a fuel argument so that the
kernel can evaluate it. -/
def digitsAux (b : Nat) : Nat → Nat → List Char
  | _, 0 => []
  | 0, _ + 1 => []
  | fuel + 1, n + 1 => digitsAux b fuel ((n + 1) / b) ++ [Char.ofNat (48 + (n + 1) % b)]

/-- Digit characters of `n` in base 10, most significant first, empty for 0. -/
def decCore (n : Nat) : List Char := digitsAux 10 n n

/-- Python `str(n)` for a natural number. -/
def pyStr (n : Nat) : String :=
  if n = 0 then "0" else String.mk (decCore n)

/-- Digit characters of `n` in base 2, most significant first, empty for 0. -/
def binCore (n : Nat) : List Char := digitsAux 2 n n

/-- The Python binary format spec applied to `n`: binary digits, no leading
zeros, `"0"` for zero. -/
def natToBin (n : Nat) : String :=
  if n = 0 then "0" else String.mk (binCore n)

/-- Python `str.zfill`: left-pad with `'0'` up to width `w`. -/
def zfill (s : String) (w : Nat) : String :=
  String.mk (List.replicate (w - s.length) '0' ++ s.data)

/-- `__format2bin`: convert `num` from `numformat` (`"dec"` or `"hex"`) to a
zero-padded binary string of width `format_bits`; raises on any other
format name, and propagates the ValueError of a failed `int` parse. -/
def format2bin (num : String) (numformat : String) (format_bits : Nat) :
    Except PyError String :=
  if numformat = "dec" then
    match pyIntDec num with
    | none => .error .valueError
    | some n => .ok (zfill (natToBin n) format_bits)
  else if numformat = "hex" then
    match pyIntHex num with
    | none => .error .valueError
    | some n => .ok (zfill (natToBin n) format_bits)
  else
    .error .formatError

/-- The 12-bit address encoding used for location-counter values:
`format2bin(str(LC), 'dec', 12)` always succeeds with this string. -/
def enc12 (n : Nat) : String := zfill (natToBin n) 12

/-- `__first_pass`, as a recursion over the remaining lines carrying the
location counter and the symbol table accumulated so far. -/
def firstPassLoop : List (List String) → Nat → SymTable →
    Except PyError SymTable
  | [], _, tbl => .ok tbl
  | line :: rest, LC, tbl =>
    match line.head? with
    | none => .error .indexError
    | some code =>
      if islabel code then
        firstPassLoop rest (LC + 1) (dictInsert tbl code LC)
      else if code = "org" then
        match line.getLast? with
        | none => .error .indexError
        | some t =>
          match pyIntHex t with
          | none => .error .valueError
          | some v => firstPassLoop rest v tbl
      else if code = "end" then
        .ok tbl
      else
        firstPassLoop rest (LC + 1) tbl

/-- `__first_pass` started from location counter 0 and an empty table. -/
def first_pass (asm : List (List String)) : Except PyError SymTable :=
  firstPassLoop asm 0 []

/-- The mutable state of `__second_pass`: location counter and binary image. -/
structure P2State : Type where
  LC : Nat
  bin : BinImage
deriving DecidableEq, Repr

/-- Outcome of one iteration of the `__second_pass` loop: continue with a new
state, return early (the `end` directive), or raise. -/
inductive StepResult : Type where
  | next : P2State → StepResult
  | stop : BinImage → StepResult
  | err : PyError → StepResult
deriving DecidableEq, Repr

/-- The pseudo-instruction list of `__second_pass`. -/
def pseudo_table : List String := ["org", "end", "hex", "dec"]

/-- The body of the `__second_pass` loop for one line, translated clause by
clause: compute the effective index past an optional label, format the
current location counter as the 12-bit address key, then dispatch on the
effective token over the pseudo table, the MRI, RRI and IOI tables, with an
unrecognised token advancing the location counter silently.  Negative Python
indexing `line[-1]` / `line[-2]` raises IndexError when the line is too
short. -/
def secondPassStep (mri rri ioi : OpTable) (symtab : SymTable)
    (line : List String) (s : P2State) : StepResult :=
  match line.head? with
  | none => .err .indexError
  | some first =>
    let effective_index := if islabel first then 1 else 0
    match format2bin (pyStr s.LC) "dec" 12 with
    | .error e => .err e
    | .ok LC_add =>
      match line.get? effective_index with
      | none => .err .indexError
      | some i_eff =>
        if pseudo_table.contains i_eff then
          if i_eff = "org" then
            match line.getLast? with
            | none => .err .indexError
            | some t =>
              match pyIntHex t with
              | none => .err .valueError
              | some v => .next ⟨v, s.bin⟩
          else if i_eff = "end" then
            .stop s.bin
          else if i_eff = "dec" then
            match line.getLast? with
            | none => .err .indexError
            | some t =>
              match format2bin t "dec" 16 with
              | .error e => .err e
              | .ok w => .next ⟨s.LC + 1, dictInsert s.bin LC_add w⟩
          else
            match line.getLast? with
            | none => .err .indexError
            | some t =>
              match format2bin t "hex" 16 with
              | .error e => .err e
              | .ok w => .next ⟨s.LC + 1, dictInsert s.bin LC_add w⟩
        else
          match dictGet mri i_eff with
          | some opcode =>
            match line.getLast? with
            | none => .err .indexError
            | some last =>
              match (if last = "I" then
                      (if 2 ≤ line.length then
                        match line.get? (line.length - 2) with
                        | some t => Except.ok ("1", t)
                        | none => Except.error PyError.indexError
                      else Except.error PyError.indexError)
                    else Except.ok ("0", last) :
                    Except PyError (String × String)) with
              | .error e => .err e
              | .ok (ibit, loc_eff) =>
                match dictGet symtab (loc_eff ++ ",") with
                | some location =>
                  match format2bin (pyStr location) "dec" 12 with
                  | .error e => .err e
                  | .ok f =>
                    .next ⟨s.LC + 1, dictInsert s.bin LC_add (ibit ++ opcode ++ f)⟩
                | none =>
                  match format2bin loc_eff "hex" 12 with
                  | .error e => .err e
                  | .ok f =>
                    .next ⟨s.LC + 1, dictInsert s.bin LC_add (ibit ++ opcode ++ f)⟩
          | none =>
            match dictGet rri i_eff with
            | some w => .next ⟨s.LC + 1, dictInsert s.bin LC_add w⟩
            | none =>
              match dictGet ioi i_eff with
              | some w => .next ⟨s.LC + 1, dictInsert s.bin LC_add w⟩
              | none => .next ⟨s.LC + 1, s.bin⟩

/-- The `__second_pass` loop over the remaining lines. -/
def secondPassLoop (mri rri ioi : OpTable) (symtab : SymTable) :
    List (List String) → P2State → Except PyError BinImage
  | [], s => .ok s.bin
  | line :: rest, s =>
    match secondPassStep mri rri ioi symtab line s with
    | .next s2 => secondPassLoop mri rri ioi symtab rest s2
    | .stop b => .ok b
    | .err e => .error e

/-- `__second_pass` started from location counter 0 and an empty image. -/
def second_pass (mri rri ioi : OpTable) (symtab : SymTable)
    (asm : List (List String)) : Except PyError BinImage :=
  secondPassLoop mri rri ioi symtab asm ⟨0, []⟩

/-- `assemble`: strip comments, run pass 1 to completion, then run pass 2
with the finished symbol table. -/
def assemble (mri rri ioi : OpTable) (asm : List (List String)) :
    Except PyError BinImage :=
  let asm2 := rm_comments asm
  match first_pass asm2 with
  | .error e => .error e
  | .ok tbl => second_pass mri rri ioi tbl asm2

/-- Numeric value of a most-significant-first binary digit string. -/
def binVal (cs : List Char) : Nat :=
  cs.foldl (fun a c => 2 * a + (if c = '1' then 1 else 0)) 0

/-- Every address key of the binary image is the canonical 12-bit encoding of
a location-counter value below `LC`; the invariant that makes the key written
for the next line fresh. -/
def KeysBelow (bin : BinImage) (LC : Nat) : Prop :=
  ∀ p ∈ bin, ∃ m, m < LC ∧ p.1 = enc12 m

/-- A line that pass 2 translates as a plain instruction: non-empty, no
label, no directive, no comment token, and its first token found in one of
the three instruction tables (for a memory-reference mnemonic the operand
must parse as hexadecimal, as it does whenever the symbol table misses). -/
def recognizedLine (mri rri ioi : OpTable) (l : List String) : Bool :=
  match l with
  | [] => false
  | hd :: _ =>
    !(islabel hd) && !(pseudo_table.contains hd) &&
    l.all (fun t => !(startsSlash t)) &&
    (match dictGet mri hd with
     | some _ =>
       (match l.getLast? with
        | some last =>
          if last = "I" then
            decide (2 ≤ l.length) &&
              (match l.get? (l.length - 2) with
               | some t => (pyIntHex t).isSome
               | none => false)
          else (pyIntHex last).isSome
        | none => false)
     | none => (dictGet rri hd).isSome || (dictGet ioi hd).isSome)

/-! ### Arithmetic facts about the numeric conversions -/

theorem digitsAux_congr (b : Nat) (hb : 2 ≤ b) :
    ∀ (fuel fuel2 n : Nat), n ≤ fuel → n ≤ fuel2 →
      digitsAux b fuel n = digitsAux b fuel2 n := by
  intro fuel
  induction fuel with
  | zero =>
    intro fuel2 n h1 _
    have hn : n = 0 := Nat.le_zero.mp h1
    subst hn
    simp [digitsAux]
  | succ f ih =>
    intro fuel2 n h1 h2
    cases n with
    | zero => simp [digitsAux]
    | succ m =>
      cases fuel2 with
      | zero => omega
      | succ f2 =>
        simp only [digitsAux]
        have hq : (m + 1) / b < m + 1 := Nat.div_lt_self (Nat.succ_pos m) (by omega)
        rw [ih f2 ((m + 1) / b) (by omega) (by omega)]

theorem decCore_succ (n : Nat) :
    decCore (n + 1) = decCore ((n + 1) / 10) ++ [Char.ofNat (48 + (n + 1) % 10)] := by
  show digitsAux 10 (n + 1) (n + 1) = _
  simp only [digitsAux]
  have hq : (n + 1) / 10 < n + 1 := Nat.div_lt_self (Nat.succ_pos n) (by omega)
  rw [digitsAux_congr 10 (by omega) n ((n + 1) / 10) ((n + 1) / 10) (by omega) (by omega)]
  rfl

theorem binCore_succ (n : Nat) :
    binCore (n + 1) = binCore ((n + 1) / 2) ++ [Char.ofNat (48 + (n + 1) % 2)] := by
  show digitsAux 2 (n + 1) (n + 1) = _
  simp only [digitsAux]
  have hq : (n + 1) / 2 < n + 1 := Nat.div_lt_self (Nat.succ_pos n) (by omega)
  rw [digitsAux_congr 2 (by omega) n ((n + 1) / 2) ((n + 1) / 2) (by omega) (by omega)]
  rfl

theorem parseCore_append (dv : Char → Option Nat) (b : Nat) :
    ∀ (xs ys : List Char) (acc : Nat),
      parseCore dv b acc (xs ++ ys)
        = (parseCore dv b acc xs).bind (fun m => parseCore dv b m ys) := by
  intro xs
  induction xs with
  | nil => intro ys acc; simp [parseCore]
  | cons c cs ih =>
    intro ys acc
    simp only [List.cons_append, parseCore]
    cases dv c with
    | none => simp
    | some d => simp [ih]

theorem decDigitVal_ofDigit (d : Nat) (hd : d < 10) :
    decDigitVal (Char.ofNat (48 + d)) = some d := by
  interval_cases d <;> decide

theorem parseCore_decCore :
    ∀ (n : Nat) (acc : Nat),
      parseCore decDigitVal 10 acc (decCore n)
        = some (acc * 10 ^ (decCore n).length + n) := by
  intro n
  induction n using Nat.strong_induction_on with
  | _ n ih =>
    intro acc
    cases n with
    | zero => simp [decCore, digitsAux, parseCore]
    | succ m =>
      have hq : (m + 1) / 10 < m + 1 := Nat.div_lt_self (Nat.succ_pos m) (by omega)
      rw [decCore_succ, parseCore_append, ih ((m + 1) / 10) hq acc]
      simp only [Option.some_bind, parseCore,
        decDigitVal_ofDigit ((m + 1) % 10) (Nat.mod_lt _ (by omega))]
      have hmod : 10 * ((m + 1) / 10) + (m + 1) % 10 = m + 1 :=
        Nat.div_add_mod (m + 1) 10
      rw [List.length_append, List.length_singleton]
      congr 1
      calc 10 * (acc * 10 ^ (decCore ((m + 1) / 10)).length + (m + 1) / 10) + (m + 1) % 10
          = acc * (10 ^ (decCore ((m + 1) / 10)).length * 10)
              + (10 * ((m + 1) / 10) + (m + 1) % 10) := by ring
        _ = acc * 10 ^ ((decCore ((m + 1) / 10)).length + 1) + (m + 1) := by
              rw [hmod, pow_succ]

theorem decCore_ne_nil (n : Nat) (h : n ≠ 0) : decCore n ≠ [] := by
  cases n with
  | zero => exact absurd rfl h
  | succ m => rw [decCore_succ]; simp

theorem pyIntDec_pyStr (n : Nat) : pyIntDec (pyStr n) = some n := by
  cases n with
  | zero => decide
  | succ m =>
    have hne : decCore (m + 1) ≠ [] := decCore_ne_nil (m + 1) (by omega)
    simp only [pyIntDec, pyStr, if_neg (Nat.succ_ne_zero m)]
    rw [if_neg (by simpa using hne)]
    rw [parseCore_decCore (m + 1) 0]
    simp

theorem format2bin_pyStr (n bits : Nat) :
    format2bin (pyStr n) "dec" bits = .ok (zfill (natToBin n) bits) := by
  simp [format2bin, pyIntDec_pyStr]

theorem binVal_append_one (xs : List Char) (c : Char) :
    binVal (xs ++ [c]) = 2 * binVal xs + (if c = '1' then 1 else 0) := by
  simp [binVal, List.foldl_append]

theorem binVal_binCore : ∀ n : Nat, binVal (binCore n) = n := by
  intro n
  induction n using Nat.strong_induction_on with
  | _ n ih =>
    cases n with
    | zero => decide
    | succ m =>
      have hq : (m + 1) / 2 < m + 1 := Nat.div_lt_self (Nat.succ_pos m) (by omega)
      rw [binCore_succ, binVal_append_one, ih ((m + 1) / 2) hq]
      have hmod : 2 * ((m + 1) / 2) + (m + 1) % 2 = m + 1 := Nat.div_add_mod (m + 1) 2
      rcases Nat.mod_two_eq_zero_or_one (m + 1) with h | h <;> rw [h] at hmod ⊢
      · rw [show (if Char.ofNat (48 + 0) = '1' then (1 : Nat) else 0) = 0 from by decide]
        omega
      · rw [show (if Char.ofNat (48 + 1) = '1' then (1 : Nat) else 0) = 1 from by decide]
        omega

theorem binVal_foldl_zero (k : Nat) :
    List.foldl (fun a c => 2 * a + (if c = '1' then 1 else 0)) 0
      (List.replicate k '0') = 0 := by
  induction k with
  | zero => rfl
  | succ j ih => simpa [List.replicate_succ] using ih

theorem binVal_replicate_append (k : Nat) (xs : List Char) :
    binVal (List.replicate k '0' ++ xs) = binVal xs := by
  simp [binVal, List.foldl_append, binVal_foldl_zero]

theorem binVal_zfill_natToBin (w n : Nat) :
    binVal (zfill (natToBin n) w).data = n := by
  show binVal (List.replicate (w - (natToBin n).length) '0' ++ (natToBin n).data) = n
  rw [binVal_replicate_append]
  cases n with
  | zero => decide
  | succ m =>
    show binVal (natToBin (m + 1)).data = m + 1
    simp only [natToBin, if_neg (Nat.succ_ne_zero m)]
    exact binVal_binCore (m + 1)

theorem enc12_inj {a b : Nat} (h : enc12 a = enc12 b) : a = b := by
  have := congrArg (fun s => binVal s.data) h
  simpa [enc12, binVal_zfill_natToBin] using this

/-! ### Association-list facts -/

theorem dictInsert_append {β : Type} (d : List (String × β)) (k : String) (v : β)
    (h : ∀ p ∈ d, p.1 ≠ k) : dictInsert d k v = d ++ [(k, v)] := by
  have hfind : (d.find? (fun p => p.1 == k)).isSome = false := by
    rw [Bool.eq_false_iff]
    intro hs
    rw [List.find?_isSome] at hs
    obtain ⟨p, hp, he⟩ := hs
    exact h p hp (by simpa using he)
  simp [dictInsert, hfind]

theorem keysBelow_nil (LC : Nat) : KeysBelow [] LC := by
  intro p hp
  simp at hp

theorem keysBelow_fresh {bin : BinImage} {LC : Nat} (h : KeysBelow bin LC) :
    ∀ p ∈ bin, p.1 ≠ enc12 LC := by
  intro p hp heq
  obtain ⟨m, hm, he⟩ := h p hp
  rw [he] at heq
  exact absurd (enc12_inj heq) (by omega)

theorem keysBelow_extend {bin : BinImage} {LC : Nat} {w : String}
    (h : KeysBelow bin LC) : KeysBelow (bin ++ [(enc12 LC, w)]) (LC + 1) := by
  intro p hp
  rcases List.mem_append.mp hp with h1 | h2
  · obtain ⟨m, hm, he⟩ := h p h1
    exact ⟨m, by omega, he⟩
  · simp only [List.mem_singleton] at h2
    exact ⟨LC, by omega, by rw [h2]⟩

/-! ### Branch behaviour of one `__second_pass` iteration -/

theorem secondPassStep_rri (mri rri ioi : OpTable) (symtab : SymTable)
    (hd : String) (tl : List String) (s : P2State) (w : String)
    (hlab : islabel hd = false) (hps : pseudo_table.contains hd = false)
    (hm : dictGet mri hd = none) (hr : dictGet rri hd = some w) :
    secondPassStep mri rri ioi symtab (hd :: tl) s
      = .next ⟨s.LC + 1, dictInsert s.bin (enc12 s.LC) w⟩ := by
  simp only [secondPassStep, List.head?_cons, hlab, Bool.false_eq_true, if_false,
    format2bin_pyStr, List.get?_cons_zero, hps, hm, hr]
  rfl

theorem secondPassStep_ioi (mri rri ioi : OpTable) (symtab : SymTable)
    (hd : String) (tl : List String) (s : P2State) (w : String)
    (hlab : islabel hd = false) (hps : pseudo_table.contains hd = false)
    (hm : dictGet mri hd = none) (hr : dictGet rri hd = none)
    (hio : dictGet ioi hd = some w) :
    secondPassStep mri rri ioi symtab (hd :: tl) s
      = .next ⟨s.LC + 1, dictInsert s.bin (enc12 s.LC) w⟩ := by
  simp only [secondPassStep, List.head?_cons, hlab, Bool.false_eq_true, if_false,
    format2bin_pyStr, List.get?_cons_zero, hps, hm, hr, hio]
  rfl

theorem secondPassStep_mri_sym (mri rri ioi : OpTable) (symtab : SymTable)
    (hd : String) (tl : List String) (s : P2State)
    (opcode last : String) (loc : Nat)
    (hlab : islabel hd = false) (hps : pseudo_table.contains hd = false)
    (hm : dictGet mri hd = some opcode)
    (hlast : (hd :: tl).getLast? = some last) (hI : last ≠ "I")
    (hsym : dictGet symtab (last ++ ",") = some loc) :
    secondPassStep mri rri ioi symtab (hd :: tl) s
      = .next ⟨s.LC + 1, dictInsert s.bin (enc12 s.LC) ("0" ++ opcode ++ enc12 loc)⟩ := by
  simp only [secondPassStep, List.head?_cons, hlab, Bool.false_eq_true, if_false,
    format2bin_pyStr, List.get?_cons_zero, hps, hm, hlast, if_neg hI, hsym]
  rfl

theorem secondPassStep_mri_hex (mri rri ioi : OpTable) (symtab : SymTable)
    (hd : String) (tl : List String) (s : P2State)
    (opcode last : String) (v : Nat)
    (hlab : islabel hd = false) (hps : pseudo_table.contains hd = false)
    (hm : dictGet mri hd = some opcode)
    (hlast : (hd :: tl).getLast? = some last) (hI : last ≠ "I")
    (hsym : dictGet symtab (last ++ ",") = none)
    (hhex : pyIntHex last = some v) :
    secondPassStep mri rri ioi symtab (hd :: tl) s
      = .next ⟨s.LC + 1,
          dictInsert s.bin (enc12 s.LC) ("0" ++ opcode ++ zfill (natToBin v) 12)⟩ := by
  simp only [secondPassStep, List.head?_cons, hlab, Bool.false_eq_true, if_false,
    format2bin_pyStr, List.get?_cons_zero, hps, hm, hlast, if_neg hI, hsym]
  simp [format2bin, hhex, enc12]

theorem secondPassStep_mri_ind_hex (mri rri ioi : OpTable) (symtab : SymTable)
    (hd : String) (tl : List String) (s : P2State)
    (opcode t : String) (v : Nat)
    (hlab : islabel hd = false) (hps : pseudo_table.contains hd = false)
    (hm : dictGet mri hd = some opcode)
    (hlast : (hd :: tl).getLast? = some "I")
    (hlen : 2 ≤ (hd :: tl).length)
    (hget : (hd :: tl).get? ((hd :: tl).length - 2) = some t)
    (hsym : dictGet symtab (t ++ ",") = none)
    (hhex : pyIntHex t = some v) :
    secondPassStep mri rri ioi symtab (hd :: tl) s
      = .next ⟨s.LC + 1,
          dictInsert s.bin (enc12 s.LC) ("1" ++ opcode ++ zfill (natToBin v) 12)⟩ := by
  have hlen2 : 1 ≤ tl.length := by simpa using hlen
  have hget2 : (hd :: tl)[tl.length - 1]? = some t := by simpa using hget
  simp only [secondPassStep, List.head?_cons, hlab, Bool.false_eq_true, if_false,
    format2bin_pyStr, List.get?_cons_zero, hps, hm, hlast]
  simp [hlen2, hget2, hsym, format2bin, hhex, enc12]

theorem secondPassStep_end (mri rri ioi : OpTable) (symtab : SymTable)
    (rest : List String) (s : P2State) :
    secondPassStep mri rri ioi symtab ("end" :: rest) s = .stop s.bin := by
  simp only [secondPassStep, List.head?_cons, format2bin_pyStr, List.get?_cons_zero]
  rfl

/-! ### Lines recognised as plain instructions -/

theorem recognizedLine_parts {mri rri ioi : OpTable} {l : List String}
    (h : recognizedLine mri rri ioi l = true) :
    ∃ hd tl, l = hd :: tl ∧ islabel hd = false ∧ pseudo_table.contains hd = false ∧
      (∀ t ∈ l, startsSlash t = false) := by
  cases l with
  | nil => simp [recognizedLine] at h
  | cons hd tl =>
    simp only [recognizedLine, Bool.and_eq_true, Bool.not_eq_true',
      List.all_eq_true] at h
    obtain ⟨⟨⟨h1, h2⟩, h3⟩, -⟩ := h
    exact ⟨hd, tl, rfl, h1, h2, h3⟩

theorem step_recognized {mri rri ioi : OpTable} {l : List String}
    (LC : Nat) (bin : BinImage)
    (h : recognizedLine mri rri ioi l = true) :
    ∃ w, secondPassStep mri rri ioi [] l ⟨LC, bin⟩
      = .next ⟨LC + 1, dictInsert bin (enc12 LC) w⟩ := by
  obtain ⟨hd, tl, rfl, h1, h2, -⟩ := recognizedLine_parts h
  simp only [recognizedLine, Bool.and_eq_true] at h
  obtain ⟨-, h4⟩ := h
  cases hm : dictGet mri hd with
  | none =>
    simp only [hm, Bool.or_eq_true] at h4
    cases hr : dictGet rri hd with
    | some w => exact ⟨w, secondPassStep_rri mri rri ioi [] hd tl ⟨LC, bin⟩ w h1 h2 hm hr⟩
    | none =>
      simp only [hr, Option.isSome_none, Bool.false_eq_true, false_or] at h4
      obtain ⟨w, hw⟩ := Option.isSome_iff_exists.mp h4
      exact ⟨w, secondPassStep_ioi mri rri ioi [] hd tl ⟨LC, bin⟩ w h1 h2 hm hr hw⟩
  | some opcode =>
    simp only [hm] at h4
    cases hlast : (hd :: tl).getLast? with
    | none => simp [hlast] at h4
    | some last =>
      simp only [hlast] at h4
      by_cases hI : last = "I"
      · subst hI
        rw [if_pos rfl, Bool.and_eq_true, decide_eq_true_eq] at h4
        obtain ⟨hlen, h5⟩ := h4
        split at h5
        next t heq =>
          obtain ⟨v, hv⟩ := Option.isSome_iff_exists.mp h5
          exact ⟨"1" ++ opcode ++ zfill (natToBin v) 12,
            secondPassStep_mri_ind_hex mri rri ioi [] hd tl ⟨LC, bin⟩ opcode t v
              h1 h2 hm hlast hlen heq rfl hv⟩
        next heq => exact absurd h5 (by simp)
      · rw [if_neg hI] at h4
        obtain ⟨v, hv⟩ := Option.isSome_iff_exists.mp h4
        exact ⟨"0" ++ opcode ++ zfill (natToBin v) 12,
          secondPassStep_mri_hex mri rri ioi [] hd tl ⟨LC, bin⟩ opcode last v
            h1 h2 hm hlast hI rfl hv⟩

theorem rmLine_id (l : List String) (h : ∀ t ∈ l, startsSlash t = false) :
    rmLine l = l := by
  induction l with
  | nil => rfl
  | cons t ts ih =>
    simp only [rmLine, h t (by simp), Bool.false_eq_true, if_false]
    rw [ih (fun t2 ht2 => h t2 (by simp [ht2]))]

theorem rm_comments_recognized (mri rri ioi : OpTable) (lines : List (List String))
    (h : ∀ l ∈ lines, recognizedLine mri rri ioi l = true) :
    rm_comments lines = lines := by
  induction lines with
  | nil => rfl
  | cons l rest ih =>
    obtain ⟨hd, tl, he, -, -, hslash⟩ := recognizedLine_parts (h l (by simp))
    show rmLine l :: rm_comments rest = l :: rest
    rw [rmLine_id l hslash, ih (fun l2 hl2 => h l2 (by simp [hl2]))]

theorem firstPass_recognized (mri rri ioi : OpTable) :
    ∀ (lines : List (List String)) (LC : Nat) (tbl : SymTable),
      (∀ l ∈ lines, recognizedLine mri rri ioi l = true) →
      firstPassLoop lines LC tbl = .ok tbl := by
  intro lines
  induction lines with
  | nil => intro LC tbl _; rfl
  | cons l rest ih =>
    intro LC tbl h
    obtain ⟨hd, tl, rfl, h1, h2, -⟩ := recognizedLine_parts (h l (by simp))
    have horg : hd ≠ "org" := by
      intro he
      rw [he] at h2
      exact (by decide : ¬ (pseudo_table.contains "org" = false)) h2
    have hend : hd ≠ "end" := by
      intro he
      rw [he] at h2
      exact (by decide : ¬ (pseudo_table.contains "end" = false)) h2
    simp only [firstPassLoop, List.head?_cons, h1, Bool.false_eq_true, if_false,
      if_neg horg, if_neg hend]
    exact ih (LC + 1) tbl (fun l2 hl2 => h l2 (by simp [hl2]))

theorem loop_recognized (mri rri ioi : OpTable) :
    ∀ (lines : List (List String)) (LC : Nat) (bin : BinImage),
      (∀ l ∈ lines, recognizedLine mri rri ioi l = true) →
      KeysBelow bin LC →
      ∃ b, secondPassLoop mri rri ioi [] lines ⟨LC, bin⟩ = .ok b ∧
        b.map Prod.fst = bin.map Prod.fst ++ (List.range' LC lines.length).map enc12 := by
  intro lines
  induction lines with
  | nil =>
    intro LC bin _ _
    exact ⟨bin, rfl, by simp⟩
  | cons l rest ih =>
    intro LC bin hrec hkeys
    obtain ⟨w, hw⟩ := step_recognized LC bin (hrec l (by simp))
    have hins : dictInsert bin (enc12 LC) w = bin ++ [(enc12 LC, w)] :=
      dictInsert_append bin (enc12 LC) w (keysBelow_fresh hkeys)
    obtain ⟨b, hb1, hb2⟩ := ih (LC + 1) (bin ++ [(enc12 LC, w)])
      (fun l2 hl2 => hrec l2 (by simp [hl2]))
      (keysBelow_extend hkeys)
    refine ⟨b, ?_, ?_⟩
    · simp only [secondPassLoop, hw, hins]
      exact hb1
    · rw [hb2, List.map_append]
      rw [show List.range' LC ((l :: rest).length) = LC :: List.range' (LC + 1) rest.length
        from rfl]
      simp [List.append_assoc]

theorem rmLine_idem (l : List String) : rmLine (rmLine l) = rmLine l := by
  induction l with
  | nil => rfl
  | cons t ts ih =>
    by_cases h : startsSlash t = true
    · simp [rmLine, h]
    · have h2 : startsSlash t = false := by simpa using h
      simp [rmLine, h2, ih]

theorem getLast?_cons_exists (c : String) (cs : List String) :
    ∃ t, (c :: cs).getLast? = some t := by
  induction cs generalizing c with
  | nil => exact ⟨c, rfl⟩
  | cons d ds ih =>
    obtain ⟨t, ht⟩ := ih d
    exact ⟨t, by rw [List.getLast?_cons_cons, ht]⟩

/-! ### The claims -/

/-- Claim C1.  The spec says a trailing lower-case `i` token on a
memory-reference line sets the indirection bit and shifts the operand to the
second-to-last token.  The code compares the token against upper-case `"I"`,
but the tokenizer lower-cases every token, so the comparison never succeeds:
on `lda x i` the token `i` itself is taken as the operand, the symbol lookup
of `i,` misses and the hexadecimal parse of `i` raises ValueError.  Only the
impossible upper-case token `I` (which `read_code` can never produce) takes
the indirection branch. -/
theorem mri_indirection_marker_case_bug :
    readTokens [["LDA", "X", "I"]] = [["lda", "x", "i"]]
    ∧ secondPassStep [("lda", "010")] [] [] [("x,", 5)] ["lda", "x", "i"] ⟨0, []⟩
        = .err .valueError
    ∧ secondPassStep [("lda", "010")] [] [] [("x,", 5)] ["lda", "x", "I"] ⟨0, []⟩
        = .next ⟨1, [("000000000000", "1010000000000101")]⟩ :=
  ⟨by decide, by decide, by decide⟩

/-- Claim C2, counterexample.  The line `x, end` has effective token `end`
(index 1, past the label), yet pass 1 treats it as a label declaration and
keeps scanning: the label-only line `y,` after it still enters the symbol
table, contradicting the claim that no line after an `end`-effective line
contributes an entry. -/
theorem end_effective_token_cex :
    (["x,", "end"].get? (if islabel "x," then 1 else 0) = some "end")
    ∧ firstPassLoop [["x,", "end"], ["y,"]] 0 [] = .ok [("x,", 0), ("y,", 1)] :=
  ⟨by decide, by decide⟩

/-- Claim C6.  `dec 25` emits the 16-bit word `0000000000011001` at the
current 12-bit address key and advances the location counter by one, and
`hex 19` emits the identical word (25 = 0x19). -/
theorem dec_hex_emit_same_word (mri rri ioi : OpTable) (symtab : SymTable)
    (LC : Nat) (bin : BinImage) :
    secondPassStep mri rri ioi symtab ["dec", "25"] ⟨LC, bin⟩
      = .next ⟨LC + 1, dictInsert bin (enc12 LC) "0000000000011001"⟩
    ∧ secondPassStep mri rri ioi symtab ["hex", "19"] ⟨LC, bin⟩
      = .next ⟨LC + 1, dictInsert bin (enc12 LC) "0000000000011001"⟩ := by
  constructor
  · simp [secondPassStep, format2bin_pyStr,
      show islabel "dec" = false from by decide,
      show pseudo_table.contains "dec" = true from by decide,
      show format2bin "25" "dec" 16 = Except.ok "0000000000011001" from by decide,
      enc12]
    intro hmem
    exact absurd (by decide : "dec" ∈ pseudo_table) hmem
  · simp [secondPassStep, format2bin_pyStr,
      show islabel "hex" = false from by decide,
      show pseudo_table.contains "hex" = true from by decide,
      show format2bin "19" "hex" 16 = Except.ok "0000000000011001" from by decide,
      enc12]
    intro hmem
    exact absurd (by decide : "hex" ∈ pseudo_table) hmem

/-- Claim C7.  A line whose effective token is not a pseudo-instruction and
is in none of the three instruction tables advances the location counter by
one and emits nothing. -/
theorem unrecognized_mnemonic_skipped (mri rri ioi : OpTable) (symtab : SymTable)
    (l : List String) (first i_eff : String) (LC : Nat) (bin : BinImage)
    (h0 : l.head? = some first)
    (h1 : l.get? (if islabel first then 1 else 0) = some i_eff)
    (h2 : pseudo_table.contains i_eff = false)
    (h3 : dictGet mri i_eff = none) (h4 : dictGet rri i_eff = none)
    (h5 : dictGet ioi i_eff = none) :
    secondPassStep mri rri ioi symtab l ⟨LC, bin⟩ = .next ⟨LC + 1, bin⟩ := by
  simp only [secondPassStep, h0, format2bin_pyStr, h1, h2, Bool.false_eq_true,
    if_false, h3, h4, h5]

/-- Witness for C7 at the unrecognised line `foo` with empty tables. -/
theorem unrecognized_mnemonic_skipped_witness :
    secondPassStep [] [] [] [] ["foo"] ⟨0, []⟩ = .next ⟨1, []⟩ :=
  unrecognized_mnemonic_skipped [] [] [] [] ["foo"] "foo" "foo" 0 []
    (by decide) (by decide) (by decide) (by decide) (by decide) (by decide)

/-- Claim C8.  `__format2bin` raises for any format name other than `dec`
and `hex`, and for those two formats its result is never that failure (a
failed parse raises ValueError, a different exception). -/
theorem format2bin_unsupported_format (num f : String) (bits : Nat)
    (h1 : f ≠ "dec") (h2 : f ≠ "hex") :
    format2bin num f bits = .error .formatError
    ∧ format2bin num "dec" bits ≠ .error .formatError
    ∧ format2bin num "hex" bits ≠ .error .formatError := by
  refine ⟨?_, ?_, ?_⟩
  · simp [format2bin, h1, h2]
  · cases hp : pyIntDec num with
    | none => simp [format2bin, hp]
    | some n => simp [format2bin, hp]
  · cases hp : pyIntHex num with
    | none => simp [format2bin, hp]
    | some n => simp [format2bin, hp]

/-- Witness for C8 at the unsupported format name `oct`. -/
theorem format2bin_unsupported_format_witness :
    format2bin "7" "oct" 4 = .error .formatError
    ∧ format2bin "7" "dec" 4 ≠ .error .formatError
    ∧ format2bin "7" "hex" 4 ≠ .error .formatError :=
  format2bin_unsupported_format "7" "oct" 4 (by decide) (by decide)

/-- Claim C9.  Comment stripping is idempotent: applying `__rm_comments`
twice equals applying it once. -/
theorem rm_comments_idempotent (asm : List (List String)) :
    rm_comments (rm_comments asm) = rm_comments asm := by
  simp [rm_comments, List.map_map, Function.comp, rmLine_idem]

/-- Claim C10.  A line whose only token is a label makes pass 2 read the
token at effective index 1 of a one-token line and fail with IndexError,
while pass 1 accepts the same line and records the label. -/
theorem label_only_line_second_pass_fails (mri rri ioi : OpTable)
    (symtab : SymTable) (t : String) (s : P2State) (LC : Nat) (tbl : SymTable)
    (h : islabel t = true) :
    secondPassStep mri rri ioi symtab [t] s = .err .indexError
    ∧ firstPassLoop [[t]] LC tbl = .ok (dictInsert tbl t LC) := by
  constructor
  · simp only [secondPassStep, List.head?_cons, h, if_true, format2bin_pyStr,
      List.get?_cons_succ, List.get?_nil]
  · simp only [firstPassLoop, List.head?_cons, h, if_true]

/-- Witness for C10 at the label-only line `x,`. -/
theorem label_only_line_second_pass_fails_witness :
    secondPassStep [] [] [] [] ["x,"] ⟨0, []⟩ = .err .indexError
    ∧ firstPassLoop [["x,"]] 0 [] = .ok (dictInsert [] "x," 0) :=
  label_only_line_second_pass_fails [] [] [] [] "x," ⟨0, []⟩ 0 [] (by decide)

/-- Claim C2 (amended).  A line whose FIRST token is `end` terminates both
pass 1 and pass 2: the lines after it have no effect on either result.  (As
the counterexample shows, a labelled line `x, end` — whose first EFFECTIVE
token is `end` — terminates only pass 2, while pass 1 records the label and
keeps scanning the remaining lines.) -/
theorem end_first_token_terminates_both_passes
    (mri rri ioi : OpTable) (symtab : SymTable)
    (pre post : List (List String)) (rest : List String)
    (LC : Nat) (tbl : SymTable) (s : P2State) :
    firstPassLoop (pre ++ ("end" :: rest) :: post) LC tbl
      = firstPassLoop (pre ++ [("end" :: rest)]) LC tbl
    ∧ secondPassLoop mri rri ioi symtab (pre ++ ("end" :: rest) :: post) s
      = secondPassLoop mri rri ioi symtab (pre ++ [("end" :: rest)]) s := by
  constructor
  · induction pre generalizing LC tbl with
    | nil =>
      simp [firstPassLoop, show islabel "end" = false from by decide]
    | cons l pre2 ih =>
      simp only [List.cons_append, firstPassLoop]
      cases hh : l.head? with
      | none => rfl
      | some code =>
        by_cases hl : islabel code
        · simp only [hl, if_true]
          exact ih (LC + 1) (dictInsert tbl code LC)
        · have hl2 : islabel code = false := by simpa using hl
          by_cases ho : code = "org"
          · simp only [hl2, Bool.false_eq_true, if_false, if_pos ho]
            cases hgl : l.getLast? with
            | none => rfl
            | some t =>
              cases hx : pyIntHex t with
              | none => simp only [hx]
              | some v =>
                simp only [hx]
                exact ih v tbl
          · by_cases he : code = "end"
            · simp only [hl2, Bool.false_eq_true, if_false, if_neg ho, if_pos he]
            · simp only [hl2, Bool.false_eq_true, if_false, if_neg ho, if_neg he]
              exact ih (LC + 1) tbl
  · induction pre generalizing s with
    | nil =>
      simp only [List.nil_append, secondPassLoop, secondPassStep_end]
    | cons l pre2 ih =>
      simp only [List.cons_append, secondPassLoop]
      cases hs : secondPassStep mri rri ioi symtab l s with
      | next s2 => exact ih s2
      | stop b => rfl
      | err e => rfl

/-- Claim C3.  With the symbol table fully built by pass 1, a
memory-reference instruction that names a declared label encodes as its
12-bit address field exactly the location recorded for the label in pass 1,
regardless of where the instruction sits (before or after the declaring
line) and regardless of the current location counter and image: forward and
backward references resolve identically. -/
theorem label_resolution_uniform
    (mri rri ioi : OpTable) (symtab : SymTable) (lines0 : List (List String))
    (instr1 instr2 op opcode1 opcode2 : String) (loc LC1 LC2 : Nat)
    (b1 b2 : BinImage)
    (hfp : first_pass lines0 = .ok symtab)
    (h1lab : islabel instr1 = false) (h2lab : islabel instr2 = false)
    (h1ps : pseudo_table.contains instr1 = false)
    (h2ps : pseudo_table.contains instr2 = false)
    (h1m : dictGet mri instr1 = some opcode1)
    (h2m : dictGet mri instr2 = some opcode2)
    (hop : op ≠ "I")
    (hsym : dictGet symtab (op ++ ",") = some loc) :
    secondPassStep mri rri ioi symtab [instr1, op] ⟨LC1, b1⟩
      = .next ⟨LC1 + 1, dictInsert b1 (enc12 LC1) ("0" ++ opcode1 ++ enc12 loc)⟩
    ∧ secondPassStep mri rri ioi symtab [instr2, op] ⟨LC2, b2⟩
      = .next ⟨LC2 + 1, dictInsert b2 (enc12 LC2) ("0" ++ opcode2 ++ enc12 loc)⟩ :=
  ⟨secondPassStep_mri_sym mri rri ioi symtab instr1 [op] ⟨LC1, b1⟩ opcode1 op loc
      h1lab h1ps h1m (by simp) hop hsym,
    secondPassStep_mri_sym mri rri ioi symtab instr2 [op] ⟨LC2, b2⟩ opcode2 op loc
      h2lab h2ps h2m (by simp) hop hsym⟩

/-- Witness for C3: in `lda x / x, dec 5 / add x` the forward use (address 0)
and the backward use (address 2) both embed the 12-bit field for location 1. -/
theorem label_resolution_uniform_witness :
    secondPassStep [("lda", "010"), ("add", "110")] [] [] [("x,", 1)]
        ["lda", "x"] ⟨0, []⟩
      = .next ⟨0 + 1, dictInsert [] (enc12 0) ("0" ++ "010" ++ enc12 1)⟩
    ∧ secondPassStep [("lda", "010"), ("add", "110")] [] [] [("x,", 1)]
        ["add", "x"] ⟨2, []⟩
      = .next ⟨2 + 1, dictInsert [] (enc12 2) ("0" ++ "110" ++ enc12 1)⟩ :=
  label_resolution_uniform [("lda", "010"), ("add", "110")] [] [] [("x,", 1)]
    [["lda", "x"], ["x,", "dec", "5"], ["add", "x"]]
    "lda" "add" "x" "010" "110" 1 0 2 [] []
    (by decide) (by decide) (by decide) (by decide) (by decide)
    (by decide) (by decide) (by decide) (by decide)

/-- Claim C5.  Pass 1 reads token 0 of every line unconditionally, so a
line with zero tokens ahead of any `end` directive makes the whole pass
fail with IndexError instead of completing. -/
theorem empty_line_first_pass_index_error :
    ∀ (pre post : List (List String)) (LC : Nat) (tbl : SymTable),
      (∀ l ∈ pre, l ≠ ([] : List String)) →
      (∀ l ∈ pre, l.head? ≠ some "end") →
      (∀ l ∈ pre, l.head? = some "org" →
        (pyIntHex (l.getLast?.getD "")).isSome = true) →
      firstPassLoop (pre ++ [] :: post) LC tbl = .error .indexError := by
  intro pre
  induction pre with
  | nil =>
    intro post LC tbl _ _ _
    rfl
  | cons l pre2 ih =>
    intro post LC tbl hne hnend horg
    obtain ⟨c, cs, rfl⟩ : ∃ c cs, l = c :: cs := by
      cases l with
      | nil => exact absurd rfl (hne [] (by simp))
      | cons c cs => exact ⟨c, cs, rfl⟩
    simp only [List.cons_append, firstPassLoop, List.head?_cons]
    by_cases hlab : islabel c
    · simp only [hlab, if_true]
      exact ih post (LC + 1) (dictInsert tbl c LC)
        (fun l2 h2 => hne l2 (by simp [h2]))
        (fun l2 h2 => hnend l2 (by simp [h2]))
        (fun l2 h2 => horg l2 (by simp [h2]))
    · have hlab2 : islabel c = false := by simpa using hlab
      by_cases ho : c = "org"
      · obtain ⟨t, ht⟩ := getLast?_cons_exists c cs
        have hO := horg (c :: cs) (by simp) (by rw [List.head?_cons, ho])
        rw [ht] at hO
        simp only [Option.getD_some] at hO
        obtain ⟨v, hv⟩ := Option.isSome_iff_exists.mp hO
        simp only [hlab2, Bool.false_eq_true, if_false, if_pos ho, ht, hv]
        exact ih post v tbl
          (fun l2 h2 => hne l2 (by simp [h2]))
          (fun l2 h2 => hnend l2 (by simp [h2]))
          (fun l2 h2 => horg l2 (by simp [h2]))
      · have he : c ≠ "end" := by
          intro hc
          exact hnend (c :: cs) (by simp) (by rw [List.head?_cons, hc])
        simp only [hlab2, Bool.false_eq_true, if_false, if_neg ho, if_neg he]
        exact ih post (LC + 1) tbl
          (fun l2 h2 => hne l2 (by simp [h2]))
          (fun l2 h2 => hnend l2 (by simp [h2]))
          (fun l2 h2 => horg l2 (by simp [h2]))

/-- Witness for C5: an empty line after `org 10`, a label line and an
instruction makes pass 1 raise IndexError. -/
theorem empty_line_first_pass_index_error_witness :
    firstPassLoop ([["org", "10"], ["lbl,"], ["cla"]] ++ [] :: [["foo"]]) 0 []
      = .error .indexError :=
  empty_line_first_pass_index_error [["org", "10"], ["lbl,"], ["cla"]] [["foo"]] 0 []
    (by decide) (by decide) (by decide)

/-- Claim C4.  A source consisting solely of recognised instruction lines
(no labels, directives, comments or forward references) assembles to a
binary image with exactly one entry per line whose address keys are the
12-bit encodings of 0, 1, 2, ... starting at `000000000000`. -/
theorem plain_instructions_consecutive_addresses (mri rri ioi : OpTable)
    (lines : List (List String))
    (hrec : ∀ l ∈ lines, recognizedLine mri rri ioi l = true) :
    ∃ b, assemble mri rri ioi lines = .ok b ∧
      b.length = lines.length ∧
      b.map Prod.fst = (List.range lines.length).map enc12 ∧
      (lines ≠ [] → (b.map Prod.fst).head? = some "000000000000") := by
  obtain ⟨b, hb1, hb2⟩ := loop_recognized mri rri ioi lines 0 [] hrec (keysBelow_nil 0)
  have hmap : b.map Prod.fst = (List.range lines.length).map enc12 := by
    rw [hb2, List.range_eq_range']
    simp
  refine ⟨b, ?_, ?_, hmap, ?_⟩
  · show (match first_pass (rm_comments lines) with
      | Except.error e => (Except.error e : Except PyError BinImage)
      | Except.ok tbl => second_pass mri rri ioi tbl (rm_comments lines)) = Except.ok b
    rw [rm_comments_recognized mri rri ioi lines hrec]
    rw [show first_pass lines = Except.ok []
      from firstPass_recognized mri rri ioi lines 0 [] hrec]
    exact hb1
  · have hlen := congrArg List.length hmap
    simpa using hlen
  · intro hne
    rw [hmap]
    cases lines with
    | nil => exact absurd rfl hne
    | cons l rest2 =>
      simp only [List.length_cons, List.range_eq_range']
      rw [show List.range' 0 (rest2.length + 1) = 0 :: List.range' 1 rest2.length from rfl]
      simp only [List.map_cons, List.head?_cons]
      rw [show enc12 0 = "000000000000" from by decide]

/-- Witness for C4: two recognised instruction lines assemble to two entries
at addresses 0 and 1. -/
theorem plain_instructions_consecutive_addresses_witness :
    ∃ b : BinImage, assemble [("lda", "010")] [("cla", "0111100000000000")] []
          [["cla"], ["lda", "4"]] = .ok b ∧
        b.length = ([["cla"], ["lda", "4"]] : List (List String)).length ∧
        b.map Prod.fst
          = (List.range ([["cla"], ["lda", "4"]] : List (List String)).length).map enc12 ∧
        (([["cla"], ["lda", "4"]] : List (List String)) ≠ [] →
          (b.map Prod.fst).head? = some "000000000000") :=
  plain_instructions_consecutive_addresses [("lda", "010")]
    [("cla", "0111100000000000")] [] [["cla"], ["lda", "4"]] (by decide)
